import Mathlib

set_option maxHeartbeats 1000000

/-
Shallow embedding of the PDF layout engine in `app.py` of the
REPORTERODAJES repository.

Strings are modelled as `List Char`.  Font metrics are modelled by an
arbitrary per-character advance width `cw : Char → Nat`; the width of a
string is the sum of its characters' widths (the spec fixes
"per-character advance-width summation" as the metric model).  Vertical
sizes from the table renderer are modelled in hundredths of an inch,
so `line_h = 0.16 * inch` becomes `16`, `pad_y_cell = 0.10 * inch`
becomes `10`, `badge_h = 0.28 * inch` becomes `28` and the absolute
floor `0.46 * inch` becomes `46`.
-/

namespace Rodaje

/- Python `str.strip()` whitespace set, restricted to the ASCII
whitespace characters that can actually occur here. -/
def pyWs (c : Char) : Bool :=
  c == ' ' || c == '\t' || c == '\n' || c == '\r' || c == '\x0b' || c == '\x0c'

def pyStripLeft (l : List Char) : List Char := l.dropWhile pyWs

def pyStripRight (l : List Char) : List Char := (l.reverse.dropWhile pyWs).reverse

/- Python `s.strip()`. -/
def pyStrip (l : List Char) : List Char := pyStripRight (pyStripLeft l)

/- `stringWidth`: sum of per-character advance widths. -/
def width (cw : Char → Nat) (s : List Char) : Nat := (s.map cw).sum

/- `s.replace("\t", " ")`. -/
def detab (l : List Char) : List Char := l.map (fun c => if c = '\t' then ' ' else c)

/- Python `s.split(sep)` for a one-character separator: keeps empty
pieces between consecutive separators. -/
def splitOnChar (sep : Char) : List Char → List (List Char)
  | [] => [[]]
  | c :: cs =>
    if c = sep then [] :: splitOnChar sep cs
    else
      match splitOnChar sep cs with
      | t :: ts => (c :: t) :: ts
      | [] => [[c]]

/- The character-by-character splitting loop at the end of
`wrap_lines.add_token` (app.py lines 504-515): cut an oversized token
into maximal width-fitting chunks. -/
def charSplit (cw : Char → Nat) (maxW : Nat) : List Char → List Char → List (List Char)
  | [], buf => if buf = [] then [] else [buf]
  | ch :: rest, buf =>
    let cand := buf ++ [ch]
    if width cw cand ≤ maxW then charSplit cw maxW rest cand
    else (if buf = [] then [] else [buf]) ++ charSplit cw maxW rest [ch]

/- The mutable `lines` / `cur` pair of `wrap_lines`. -/
structure WrapSt where
  lines : List (List Char)
  cur : List Char

/- `wrap_lines.flush` (app.py lines 484-488). -/
def flushSt (st : WrapSt) : WrapSt :=
  if pyStrip st.cur = [] then { lines := st.lines, cur := [] }
  else { lines := st.lines ++ [pyStrip st.cur], cur := [] }

/- `wrap_lines.add_token` (app.py lines 490-515). -/
def addToken (cw : Char → Nat) (maxW : Nat) (st : WrapSt) (tok : List Char) : WrapSt :=
  let test := pyStrip (st.cur ++ [' '] ++ tok)
  if width cw test ≤ maxW then { lines := st.lines, cur := test }
  else
    let st1 := if st.cur = [] then st else flushSt st
    if width cw tok ≤ maxW then { lines := st1.lines, cur := tok }
    else { lines := st1.lines ++ charSplit cw maxW tok [], cur := [] }

/- `wrap_lines` (app.py lines 469-523). -/
def wrap_lines (cw : Char → Nat) (maxW : Nat) (text : List Char) : List (List Char) :=
  let s := pyStrip (detab text)
  if s = [] then [[]]
  else
    let words := splitOnChar ' ' s
    let st := words.foldl (fun st w => if w = [] then st else addToken cw maxW st w) ⟨[], []⟩
    let st1 := flushSt st
    if st1.lines = [] then [[]] else st1.lines

/- Python `text.find("\n", start)`: index of the first newline at
position `≥ start`, as an `Option` instead of `-1`. -/
def findNlAux : List Char → Nat → Option Nat
  | [], _ => none
  | c :: cs, idx => if c = '\n' then some idx else findNlAux cs (idx + 1)

def findNl (text : List Char) (start : Nat) : Option Nat :=
  findNlAux (text.drop start) start

/- The greedy prefix scan of `wrap_text_with_offsets` (app.py lines
605-616).  `pre` is `para[:i]`, the candidate is `para[:i+1]`; returns
(`best_cut`, `last_space`), where `last_space` is recorded before the
width test exactly as in the source. -/
def scanFit (cw : Char → Nat) (maxW : Nat) :
    List Char → List Char → Nat → Nat → Option Nat → Nat × Option Nat
  | _, [], _, best, last => (best, last)
  | pre, c :: rest, i, best, last =>
    let last1 := if c = ' ' then some i else last
    if width cw (pre ++ [c]) ≤ maxW then scanFit cw maxW (pre ++ [c]) rest (i + 1) (i + 1) last1
    else (best, last1)

/- The space-skipping loop `while next_off < para_end and
text[next_off] == " "` (app.py lines 628-629); the fuel is
`para_end - next_off`. -/
def skipSpacesFuel (text : List Char) : Nat → Nat → Nat
  | 0, off => off
  | fuel + 1, off => if text.getD off ' ' = ' ' then skipSpacesFuel text fuel (off + 1) else off

/- `wrap_text_with_offsets` (app.py lines 591-635).  Returns
(`some (line, line_start)`, `next_off`), or (`none`, `len text`) when
the offset is already at the end. -/
def wrap_text_with_offsets (cw : Char → Nat) (text : List Char) (startOff maxW : Nat) :
    Option (List Char × Nat) × Nat :=
  if text.length ≤ startOff then (none, text.length)
  else if text.getD startOff ' ' = '\n' then (some ([], startOff), startOff + 1)
  else
    let paraEnd := (findNl text startOff).getD text.length
    let para := (text.drop startOff).take (paraEnd - startOff)
    let scan := scanFit cw maxW [] para 0 0 none
    if scan.1 = para.length then
      (some (para, startOff), if (findNl text startOff).isSome then paraEnd + 1 else paraEnd)
    else
      match scan.2 with
      | some ls =>
        if 0 < ls then
          (some (para.take ls, startOff),
            skipSpacesFuel text (paraEnd - (startOff + ls + 1)) (startOff + ls + 1))
        else (some (para.take (max 1 scan.1), startOff), startOff + max 1 scan.1)
      | none => (some (para.take (max 1 scan.1), startOff), startOff + max 1 scan.1)

/- Repeated calls of the offset wrapper collecting the produced
(line, line_start) pairs, as in the pagination loop of
`render_report_pages` (app.py lines 674-690). -/
def wrapAllLines (cw : Char → Nat) (text : List Char) (maxW : Nat) :
    Nat → Nat → List (List Char × Nat)
  | 0, _ => []
  | fuel + 1, off =>
    match wrap_text_with_offsets cw text off maxW with
    | (some p, next) => p :: wrapAllLines cw text maxW fuel next
    | (none, _) => []

/- Repeated calls of the offset wrapper, tracking only the offset. -/
def iterOffset (cw : Char → Nat) (text : List Char) (maxW : Nat) : Nat → Nat → Nat
  | 0, off => off
  | fuel + 1, off =>
    if text.length ≤ off then off
    else iterOffset cw text maxW fuel (wrap_text_with_offsets cw text off maxW).2

/- Specification predicate for the span structure produced by repeated
offset-wrapper calls: spans start at the running offset, reproduce the
corresponding slice of the text, and are separated only by discarded
space / newline characters; the final offset reaches the end. -/
def GoodSpans (text : List Char) : Nat → List (List Char × Nat) → Prop
  | off, [] => text.length ≤ off
  | off, p :: rest =>
    p.2 = off ∧ p.1 = (text.drop off).take p.1.length ∧
      ∃ next, off + p.1.length ≤ next ∧ next ≤ text.length ∧
        (∀ j, off + p.1.length ≤ j → j < next →
          text.getD j ' ' = ' ' ∨ text.getD j ' ' = '\n') ∧
        GoodSpans text next rest

/- Styles of `render_report_pages.style_for_offset`. -/
inductive Style where
  | N | B | I | BI
deriving DecidableEq

/- `style_for_offset` (app.py lines 548-557): membership of the offset
in the half-open bold / italic ranges. -/
def style_for_offset (boldR italicR : List (Nat × Nat)) (off : Nat) : Style :=
  let b := boldR.any (fun p => decide (p.1 ≤ off ∧ off < p.2))
  let i := italicR.any (fun p => decide (p.1 ≤ off ∧ off < p.2))
  if b && i then Style.BI else if b then Style.B else if i then Style.I else Style.N

/- The run-accumulation loop of `draw_rich_line` (app.py lines
577-589), returning the flushed runs in draw order. -/
def richRunsAux (boldR italicR : List (Nat × Nat)) :
    List Char → Nat → List Char → Style → List (List Char × Style)
  | [], _, curRun, curStyle => if curRun = [] then [] else [(curRun, curStyle)]
  | ch :: rest, off, curRun, curStyle =>
    let st := style_for_offset boldR italicR off
    if curRun = [] then richRunsAux boldR italicR rest (off + 1) [ch] st
    else if st = curStyle then richRunsAux boldR italicR rest (off + 1) (curRun ++ [ch]) curStyle
    else (curRun, curStyle) :: richRunsAux boldR italicR rest (off + 1) [ch] st

/- The run decomposition of a line starting at absolute offset
`start`. -/
def richRuns (boldR italicR : List (Nat × Nat)) (line : List Char) (start : Nat) :
    List (List Char × Style) :=
  richRunsAux boldR italicR line start [] Style.N

/- The per-character style sequence of a line: each character paired
with the style of its absolute offset. -/
def styledChars (boldR italicR : List (Nat × Nat)) : List Char → Nat → List (Char × Style)
  | [], _ => []
  | c :: cs, off => (c, style_for_offset boldR italicR off) :: styledChars boldR italicR cs (off + 1)

/- The chunk-building inner loop of `export_pdf` (app.py lines
908-924): `used`/`ne` mirror the `used` accumulator and the
non-emptiness of `chunk`.  Returns the chunk and the remaining rows
(row heights only, since only heights drive the loop). -/
def takeChunk (A : Nat) : List Nat → Nat → Bool → List Nat × List Nat
  | [], _, _ => ([], [])
  | rh :: rest, used, ne =>
    if A < used + rh ∧ ne = true then ([], rh :: rest)
    else if A < rh ∧ ne = false then ([rh], rest)
    else
      let p := takeChunk A rest (used + rh) true
      (rh :: p.1, p.2)

/- The outer `while row_i < total_rows` pagination loop, emitting one
chunk per page; the fuel is the row count. -/
def chunksAux (A : Nat) : Nat → List Nat → List (List Nat)
  | 0, _ => []
  | _ + 1, [] => []
  | fuel + 1, rh :: rest =>
    let p := takeChunk A (rh :: rest) 0 false
    p.1 :: chunksAux A fuel p.2

def chunks (A : Nat) (rows : List Nat) : List (List Nat) := chunksAux A rows.length rows

/- Day-page titles (app.py lines 896-901). -/
def dayTitle (nombre : List Char) (pageIdx : Nat) : List Char :=
  if pageIdx = 0 then nombre
  else if pageIdx = 1 then nombre ++ (" (cont.)".data)
  else nombre ++ (" (cont. ".data) ++ (Nat.repr pageIdx).data ++ (")".data)

/- Rich-text page titles (app.py line 659). -/
def reportTitle (pn : Nat) : List Char :=
  if pn = 1 then ("Reporte".data)
  else ("Reporte (cont. ".data) ++ (Nat.repr pn).data ++ (")".data)

/- Abstract draw elements of one rendered day page, in draw order. -/
inductive PageElem where
  | dayHeader (title nombre : List Char)
  | tableHeader
  | sinFilas
  | rowsBlock (hs : List Nat)
  | pageNum (n : Nat)
deriving DecidableEq

/- The per-day rendering loop of `export_pdf` (app.py lines 895-1036),
abstracted to the emitted pages; rows are represented by their
precomputed heights. -/
def renderDayAux (nombre : List Char) (A : Nat) : Nat → List Nat → Nat → List (List PageElem)
  | 0, _, _ => []
  | _ + 1, [], _ => []
  | fuel + 1, rh :: rest, pageIdx =>
    let p := takeChunk A (rh :: rest) 0 false
    [PageElem.dayHeader (dayTitle nombre pageIdx) nombre, PageElem.tableHeader,
      PageElem.rowsBlock p.1, PageElem.pageNum (pageIdx + 1)]
      :: renderDayAux nombre A fuel p.2 (pageIdx + 1)

/- One day of `export_pdf`: the zero-row branch (app.py lines 880-893)
emits a single page with the "Sin filas." placeholder, otherwise the
chunked table pages are emitted. -/
def renderDay (nombre : List Char) (A : Nat) (rows : List Nat) : List (List PageElem) :=
  if rows = [] then
    [[PageElem.dayHeader (dayTitle nombre 0) nombre, PageElem.tableHeader, PageElem.sinFilas]]
  else renderDayAux nombre A rows.length rows 0

/- A day sheet with precomputed row heights. -/
structure DiaH where
  nombre : List Char
  rowHeights : List Nat

/- The `for d in dias` loop: all day pages in order. -/
def exportDayPages (A : Nat) (dias : List DiaH) : List (List PageElem) :=
  (dias.map (fun d => renderDay d.nombre A d.rowHeights)).flatten

/- Vertical constants of the day tables, in hundredths of an inch
(app.py lines 818-819, 867). -/
def LINE_H : Nat := 16
def PAD_Y_CELL : Nat := 10
def BADGE_H : Nat := 28
def ROW_FLOOR : Nat := 46

/- One table row (the nine text fields of a row dict). -/
structure RowR where
  tarjeta : List Char
  dropbox : List Char
  backup_b : List Char
  backup_expo : List Char
  proxies : List Char
  files_path : List Char
  peso : List Char
  desglose : List Char
  comentarios : List Char

/- `os.path.basename` (posix): the part after the last slash. -/
def pyBasename (p : List Char) : List Char :=
  (p.reverse.takeWhile (fun c => !(c == '/'))).reverse

/- `os.path.basename(row["files_path"]) if row["files_path"] else ""`. -/
def filesName (r : RowR) : List Char :=
  if r.files_path = [] then [] else pyBasename r.files_path

/- The `max_lines` computation of `compute_row_height` (app.py line
864): `cwT` is the bold metric used for the TARJETA cell, `cwB` the
body metric; `w0,w4..w7` are the cell wrap widths. -/
def maxLinesOf (cwT cwB : Char → Nat) (w0 w4 w5 w6 w7 : Nat) (r : RowR) : Nat :=
  max (max (max (max (max
    (wrap_lines cwT w0 r.tarjeta).length
    (wrap_lines cwB w4 (filesName r)).length)
    (wrap_lines cwB w5 r.peso).length)
    (wrap_lines cwB w6 r.desglose).length)
    (wrap_lines cwB w7 r.comentarios).length) 1

/- `compute_row_height` (app.py lines 851-867). -/
def compute_row_height (cwT cwB : Char → Nat) (w0 w4 w5 w6 w7 : Nat) (r : RowR) : Nat :=
  max (max (maxLinesOf cwT cwB w0 w4 w5 w6 w7 r * LINE_H + 2 * PAD_Y_CELL)
    (BADGE_H + 2 * PAD_Y_CELL)) ROW_FLOOR

/- Enum option lists (app.py lines 59-60). -/
def STATUS_OPTIONS : List (List Char) :=
  [("WORK IN PROGRESS".data), ("DONE".data), ("ON HOLD".data), ("CANCELLED".data)]

def PRIORITY_OPTIONS : List (List Char) :=
  [("BAJA".data), ("MEDIA".data), ("ALTA".data), ("URGENTE".data)]

/- Rich-text payload: text plus bold / italic half-open offset ranges. -/
structure RichPayload where
  text : List Char
  bold_ranges : List (Nat × Nat)
  italic_ranges : List (Nat × Nat)

/- A row as stored in a JSON report: any field may be absent. -/
structure PartialRow where
  tarjeta : Option (List Char)
  dropbox : Option (List Char)
  backup_b : Option (List Char)
  backup_expo : Option (List Char)
  proxies : Option (List Char)
  files_path : Option (List Char)
  peso : Option (List Char)
  desglose : Option (List Char)
  comentarios : Option (List Char)

/- A day as stored in a JSON report. -/
structure PartialDia where
  nombre : Option (List Char)
  rows : Option (List PartialRow)

/- The in-memory report record produced by `default_report` /
`open_report`. -/
structure Report where
  logo_path : List Char
  status_general : List Char
  proyecto : List Char
  fecha_inicio : List Char
  fecha_fin : List Char
  encargado : List Char
  etapa : List Char
  prioridad : List Char
  dias : List PartialDia
  reporte_rich : RichPayload

def defaultDia1 : PartialDia := { nombre := some ("Día 1".data), rows := some [] }

/- `ReportApp.default_report` (app.py lines 352-364). -/
def default_report : Report :=
  { logo_path := []
    status_general := STATUS_OPTIONS.getD 0 []
    proyecto := []
    fecha_inicio := []
    fecha_fin := []
    encargado := []
    etapa := []
    prioridad := PRIORITY_OPTIONS.getD 1 []
    dias := [defaultDia1]
    reporte_rich := { text := [], bold_ranges := [], italic_ranges := [] } }

/- A JSON report file: any top-level field may be absent. -/
structure PartialReport where
  logo_path : Option (List Char)
  status_general : Option (List Char)
  proyecto : Option (List Char)
  fecha_inicio : Option (List Char)
  fecha_fin : Option (List Char)
  encargado : Option (List Char)
  etapa : Option (List Char)
  prioridad : Option (List Char)
  dias : Option (List PartialDia)
  reporte_rich : Option RichPayload

/- The three `r.setdefault(..., "PENDIENTE")` calls of `open_report`
(app.py lines 397-400). -/
def loadRow (r : PartialRow) : PartialRow :=
  { r with
    backup_b := some (r.backup_b.getD ("PENDIENTE".data))
    backup_expo := some (r.backup_expo.getD ("PENDIENTE".data))
    proxies := some (r.proxies.getD ("PENDIENTE".data)) }

/- The per-day `setdefault` calls of `open_report` (app.py lines
394-396). -/
def loadDia (d : PartialDia) : PartialDia :=
  { nombre := some (d.nombre.getD ("Día".data))
    rows := some ((d.rows.getD []).map loadRow) }

/- `ReportApp.open_report` merging (app.py lines 389-402):
`base = default_report(); base.update(data)` plus the dias fixups. -/
def open_report_merge (d : PartialReport) : Report :=
  let base := default_report
  let dias0 := match d.dias with
    | some l => l
    | none => base.dias
  let dias1 := if dias0.isEmpty then [defaultDia1] else dias0
  { logo_path := d.logo_path.getD base.logo_path
    status_general := d.status_general.getD base.status_general
    proyecto := d.proyecto.getD base.proyecto
    fecha_inicio := d.fecha_inicio.getD base.fecha_inicio
    fecha_fin := d.fecha_fin.getD base.fecha_fin
    encargado := d.encargado.getD base.encargado
    etapa := d.etapa.getD base.etapa
    prioridad := d.prioridad.getD base.prioridad
    dias := dias1.map loadDia
    reporte_rich := d.reporte_rich.getD base.reporte_rich }

/- An all-absent JSON report and an all-absent row, used as concrete
inputs. -/
def emptyPartialReport : PartialReport :=
  { logo_path := none, status_general := none, proyecto := none, fecha_inicio := none
    fecha_fin := none, encargado := none, etapa := none, prioridad := none
    dias := none, reporte_rich := none }

def emptyPartialRow : PartialRow :=
  { tarjeta := none, dropbox := none, backup_b := none, backup_expo := none, proxies := none
    files_path := none, peso := none, desglose := none, comentarios := none }

def emptyRowR : RowR :=
  { tarjeta := [], dropbox := [], backup_b := [], backup_expo := [], proxies := []
    files_path := [], peso := [], desglose := [], comentarios := [] }

/-
Helper lemmas about the chunk-building loop.
-/

theorem takeChunk_append (A : Nat) :
    ∀ (rows : List Nat) (used : Nat) (ne : Bool),
      (takeChunk A rows used ne).1 ++ (takeChunk A rows used ne).2 = rows := by
  intro rows
  induction rows with
  | nil => intro used ne; rfl
  | cons rh rest ih =>
    intro used ne
    simp only [takeChunk]
    split
    · rfl
    · split
      · rfl
      · simp [ih]

theorem takeChunk_false_ne_nil (A used rh : Nat) (rest : List Nat) :
    (takeChunk A (rh :: rest) used false).1 ≠ [] := by
  simp only [takeChunk]
  rw [if_neg (by simp)]
  split <;> simp

theorem takeChunk_sum_true (A : Nat) :
    ∀ (rows : List Nat) (used : Nat), used ≤ A →
      (takeChunk A rows used true).1.sum + used ≤ A := by
  intro rows
  induction rows with
  | nil => intro used h; simpa [takeChunk] using h
  | cons rh rest ih =>
    intro used h
    simp only [takeChunk]
    split
    · simpa using h
    · rename_i h1
      rw [if_neg (by simp)]
      have hle : used + rh ≤ A := by
        by_contra hc
        exact h1 ⟨by omega, by simp⟩
      have := ih (used + rh) hle
      simp only [List.sum_cons]
      omega

theorem takeChunk_false_spec (A : Nat) (rows : List Nat) :
    (takeChunk A rows 0 false).1.sum ≤ A ∨
      ∃ h, (takeChunk A rows 0 false).1 = [h] ∧ A < h := by
  cases rows with
  | nil => left; simp [takeChunk]
  | cons rh rest =>
    simp only [takeChunk]
    rw [if_neg (by simp)]
    split
    · rename_i hcond
      exact Or.inr ⟨rh, rfl, hcond.1⟩
    · rename_i hcond
      left
      have hrh : rh ≤ A := by
        by_contra hc
        exact hcond ⟨by omega, by simp⟩
      have := takeChunk_sum_true A rest (0 + rh) (by omega)
      simp only [List.sum_cons]
      omega

theorem takeChunk_false_rest_lt (A rh : Nat) (rest : List Nat) :
    (takeChunk A (rh :: rest) 0 false).2.length < (rh :: rest).length := by
  have happ := takeChunk_append A (rh :: rest) 0 false
  have hne := takeChunk_false_ne_nil A 0 rh rest
  have hlen : (takeChunk A (rh :: rest) 0 false).1.length +
      (takeChunk A (rh :: rest) 0 false).2.length = (rh :: rest).length := by
    rw [← List.length_append, happ]
  have h1 : 0 < (takeChunk A (rh :: rest) 0 false).1.length :=
    List.length_pos.mpr hne
  omega

theorem chunksAux_flatten (A : Nat) :
    ∀ (fuel : Nat) (rows : List Nat), rows.length ≤ fuel →
      (chunksAux A fuel rows).flatten = rows := by
  intro fuel
  induction fuel with
  | zero =>
    intro rows h
    have : rows = [] := List.length_eq_zero.mp (Nat.le_zero.mp h)
    subst this; rfl
  | succ fuel ih =>
    intro rows h
    cases rows with
    | nil => rfl
    | cons rh rest =>
      simp only [chunksAux, List.flatten_cons]
      have hlt := takeChunk_false_rest_lt A rh rest
      have hfe : (takeChunk A (rh :: rest) 0 false).2.length ≤ fuel := by
        simp only [List.length_cons] at hlt h
        omega
      rw [ih _ hfe]
      exact takeChunk_append A (rh :: rest) 0 false

theorem chunksAux_mem (A : Nat) :
    ∀ (fuel : Nat) (rows : List Nat) (c : List Nat), c ∈ chunksAux A fuel rows →
      c.sum ≤ A ∨ ∃ h, c = [h] ∧ A < h := by
  intro fuel
  induction fuel with
  | zero => intro rows c hc; simp [chunksAux] at hc
  | succ fuel ih =>
    intro rows c hc
    cases rows with
    | nil => simp [chunksAux] at hc
    | cons rh rest =>
      simp only [chunksAux, List.mem_cons] at hc
      rcases hc with hc | hc
      · subst hc; exact takeChunk_false_spec A (rh :: rest)
      · exact ih _ c hc

/-- C2: for every list of precomputed row heights and positive available
height `A`, the day-table chunk loop emits consecutive, non-overlapping
chunks (their concatenation is exactly the input), each chunk's total
height is at most `A` unless it is a single row whose height alone
exceeds `A`, and a single row of height `2 * A` becomes a chunk by
itself (it is neither dropped nor looped on). -/
theorem chunks_paginator_spec (A : Nat) (hA : 0 < A) (hs : List Nat) :
    (chunks A hs).flatten = hs ∧
    (∀ c ∈ chunks A hs, c.sum ≤ A ∨ ∃ h, c = [h] ∧ A < h) ∧
    chunks A [2 * A] = [[2 * A]] := by
  refine ⟨chunksAux_flatten A hs.length hs le_rfl,
    fun c hc => chunksAux_mem A hs.length hs c hc, ?_⟩
  have h2 : A < 0 + 2 * A := by omega
  simp [chunks, chunksAux, takeChunk, h2]

theorem chunks_paginator_spec_witness :
    0 < 5 ∧
    ((chunks 5 [3, 4]).flatten = [3, 4] ∧
      (∀ c ∈ chunks 5 [3, 4], c.sum ≤ 5 ∨ ∃ h, c = [h] ∧ 5 < h) ∧
      chunks 5 [2 * 5] = [[2 * 5]]) :=
  ⟨by decide, chunks_paginator_spec 5 (by decide) [3, 4]⟩

/-- C9: a day sheet with an empty row sequence produces exactly one
page, holding the day header, the table header and the explicit
"Sin filas." placeholder, after which rendering proceeds with the
remaining days. -/
theorem empty_day_single_page (A : Nat) (dias1 dias2 : List DiaH) (nombre : List Char) :
    exportDayPages A (dias1 ++ ⟨nombre, []⟩ :: dias2) =
      exportDayPages A dias1 ++
        [[PageElem.dayHeader nombre nombre, PageElem.tableHeader, PageElem.sinFilas]] ++
        exportDayPages A dias2 := by
  simp [exportDayPages, renderDay, dayTitle]

/-- C8 counterexample: the claim requires every continuation page title
to bear an incrementing counter, but the second page of a day carries
the bare suffix " (cont.)" with no counter at all (no digit occurs in
the title for a digit-free day name). -/
theorem day_titles_cex :
    dayTitle ("Hoy".data) 0 = ("Hoy".data) ∧
    dayTitle ("Hoy".data) 1 = ("Hoy (cont.)".data) ∧
    ∀ c ∈ dayTitle ("Hoy".data) 1, c.isDigit = false := by decide

/-- C8 amended: the first chunk's page carries the base title; the
second chunk's page carries the base title with the counterless suffix
" (cont.)"; from the third page on the suffix carries the zero-based
page index as counter ("(cont. 2)", "(cont. 3)", ...); rich-text pages
carry "Reporte" and then "Reporte (cont. n)" with n the page number.
A day of 50 one-line rows with 20 fitting per page yields exactly 3
table pages with row counts 20/20/10 and titles base, base (cont.),
base (cont. 2). -/
theorem day_titles_amended (nombre : List Char) (k : Nat) (hk : 2 ≤ k) :
    dayTitle nombre 0 = nombre ∧
    dayTitle nombre 1 = nombre ++ (" (cont.)".data) ∧
    dayTitle nombre k = nombre ++ (" (cont. ".data) ++ (Nat.repr k).data ++ (")".data) ∧
    reportTitle 1 = ("Reporte".data) ∧
    reportTitle k = ("Reporte (cont. ".data) ++ (Nat.repr k).data ++ (")".data) ∧
    renderDay ("Hoy".data) 20 (List.replicate 50 1) =
      [[PageElem.dayHeader ("Hoy".data) ("Hoy".data), PageElem.tableHeader,
        PageElem.rowsBlock (List.replicate 20 1), PageElem.pageNum 1],
       [PageElem.dayHeader ("Hoy (cont.)".data) ("Hoy".data), PageElem.tableHeader,
        PageElem.rowsBlock (List.replicate 20 1), PageElem.pageNum 2],
       [PageElem.dayHeader ("Hoy (cont. 2)".data) ("Hoy".data), PageElem.tableHeader,
        PageElem.rowsBlock (List.replicate 10 1), PageElem.pageNum 3]] := by
  have h0 : k ≠ 0 := by omega
  have h1 : k ≠ 1 := by omega
  exact ⟨by simp [dayTitle], by simp [dayTitle], by simp [dayTitle, h0, h1],
    by simp [reportTitle], by simp [reportTitle, h1], by decide⟩

theorem day_titles_amended_witness :
    2 ≤ 2 ∧
    (dayTitle ("X".data) 0 = ("X".data) ∧
      dayTitle ("X".data) 1 = ("X".data) ++ (" (cont.)".data) ∧
      dayTitle ("X".data) 2 = ("X".data) ++ (" (cont. ".data) ++ (Nat.repr 2).data ++ (")".data) ∧
      reportTitle 1 = ("Reporte".data) ∧
      reportTitle 2 = ("Reporte (cont. ".data) ++ (Nat.repr 2).data ++ (")".data) ∧
      renderDay ("Hoy".data) 20 (List.replicate 50 1) =
        [[PageElem.dayHeader ("Hoy".data) ("Hoy".data), PageElem.tableHeader,
          PageElem.rowsBlock (List.replicate 20 1), PageElem.pageNum 1],
         [PageElem.dayHeader ("Hoy (cont.)".data) ("Hoy".data), PageElem.tableHeader,
          PageElem.rowsBlock (List.replicate 20 1), PageElem.pageNum 2],
         [PageElem.dayHeader ("Hoy (cont. 2)".data) ("Hoy".data), PageElem.tableHeader,
          PageElem.rowsBlock (List.replicate 10 1), PageElem.pageNum 3]]) :=
  ⟨by decide, day_titles_amended ("X".data) 2 (by decide)⟩

/-
Helper lemmas about the run segmenter.
-/

theorem richRunsAux_expand (bR iR : List (Nat × Nat)) :
    ∀ (rest : List Char) (off : Nat) (curRun : List Char) (curStyle : Style),
      ((richRunsAux bR iR rest off curRun curStyle).map
          (fun p => p.1.map (fun c => (c, p.2)))).flatten =
        curRun.map (fun c => (c, curStyle)) ++ styledChars bR iR rest off := by
  intro rest
  induction rest with
  | nil =>
    intro off curRun curStyle
    simp only [richRunsAux]
    split
    · rename_i h
      simp [h, styledChars]
    · simp [styledChars]
  | cons ch rest ih =>
    intro off curRun curStyle
    simp only [richRunsAux]
    split
    · rename_i h
      rw [ih]
      simp [h, styledChars]
    · split
      · rename_i hne hst
        rw [ih]
        simp [styledChars, hst]
      · rename_i hne hst
        simp only [List.map_cons, List.flatten_cons]
        rw [ih]
        simp [styledChars]

theorem richRunsAux_runs_ne_nil (bR iR : List (Nat × Nat)) :
    ∀ (rest : List Char) (off : Nat) (curRun : List Char) (curStyle : Style)
      (r : List Char × Style), r ∈ richRunsAux bR iR rest off curRun curStyle → r.1 ≠ [] := by
  intro rest
  induction rest with
  | nil =>
    intro off curRun curStyle r hr
    simp only [richRunsAux] at hr
    split at hr
    · simp at hr
    · rename_i h
      simp only [List.mem_singleton] at hr
      subst hr; exact h
  | cons ch rest ih =>
    intro off curRun curStyle r hr
    simp only [richRunsAux] at hr
    split at hr
    · exact ih _ _ _ r hr
    · split at hr
      · exact ih _ _ _ r hr
      · rename_i hne hst
        simp only [List.mem_cons] at hr
        rcases hr with hr | hr
        · subst hr; exact hne
        · exact ih _ _ _ r hr

theorem richRunsAux_head_style (bR iR : List (Nat × Nat)) :
    ∀ (rest : List Char) (off : Nat) (curRun : List Char) (curStyle : Style),
      curRun ≠ [] →
      ∃ p t, richRunsAux bR iR rest off curRun curStyle = p :: t ∧ p.2 = curStyle := by
  intro rest
  induction rest with
  | nil =>
    intro off curRun curStyle h
    refine ⟨(curRun, curStyle), [], ?_, rfl⟩
    simp [richRunsAux, h]
  | cons ch rest ih =>
    intro off curRun curStyle h
    simp only [richRunsAux]
    split
    · rename_i h0; exact absurd h0 h
    · split
      · exact ih _ _ _ (by simp)
      · exact ⟨(curRun, curStyle), _, rfl, rfl⟩

theorem richRunsAux_chain (bR iR : List (Nat × Nat)) :
    ∀ (rest : List Char) (off : Nat) (curRun : List Char) (curStyle : Style),
      List.Chain' (fun a b => a.2 ≠ b.2) (richRunsAux bR iR rest off curRun curStyle) := by
  intro rest
  induction rest with
  | nil =>
    intro off curRun curStyle
    simp only [richRunsAux]
    split <;> simp
  | cons ch rest ih =>
    intro off curRun curStyle
    simp only [richRunsAux]
    split
    · exact ih _ _ _
    · split
      · exact ih _ _ _
      · rename_i hne hst
        rcases richRunsAux_head_style bR iR rest (off + 1) [ch]
            (style_for_offset bR iR off) (by simp) with ⟨p, t, heq, hp⟩
        rw [heq]
        refine List.Chain'.cons ?_ ?_
        · rw [hp]
          exact fun h => hst h.symm
        · rw [← heq]
          exact ih _ _ _

/-- C5: the run segmenter partitions a line into maximal constant-style
runs: expanding every run back to per-character (char, style) pairs
reproduces exactly the per-character styles decided by containment in
the bold/italic offset ranges, every run is non-empty, adjacent runs
always carry different styles, and on line "abcdef" at start offset 0
with bold range [0,3) and no italic ranges the runs are exactly
("abc", bold) then ("def", normal). -/
theorem run_segmenter_spec (bR iR : List (Nat × Nat)) (line : List Char) (start : Nat) :
    ((richRuns bR iR line start).map (fun p => p.1.map (fun c => (c, p.2)))).flatten =
        styledChars bR iR line start ∧
    (∀ r ∈ richRuns bR iR line start, r.1 ≠ []) ∧
    List.Chain' (fun a b => a.2 ≠ b.2) (richRuns bR iR line start) ∧
    richRuns [(0, 3)] [] ("abcdef".data) 0 =
      [(("abc".data), Style.B), (("def".data), Style.N)] := by
  refine ⟨?_, fun r hr => richRunsAux_runs_ne_nil bR iR line start [] Style.N r hr,
    richRunsAux_chain bR iR line start [] Style.N, by decide⟩
  have h := richRunsAux_expand bR iR line start [] Style.N
  simpa [richRuns] using h

theorem run_segmenter_spec_witness :
    ((richRuns [(0, 3)] [] ("abcdef".data) 0).map
        (fun p => p.1.map (fun c => (c, p.2)))).flatten =
      styledChars [(0, 3)] [] ("abcdef".data) 0 ∧
    (∀ r ∈ richRuns [(0, 3)] [] ("abcdef".data) 0, r.1 ≠ []) ∧
    List.Chain' (fun a b => a.2 ≠ b.2) (richRuns [(0, 3)] [] ("abcdef".data) 0) ∧
    richRuns [(0, 3)] [] ("abcdef".data) 0 =
      [(("abc".data), Style.B), (("def".data), Style.N)] :=
  run_segmenter_spec [(0, 3)] [] ("abcdef".data) 0

/-
Row-height claims.
-/

theorem wrap_lines_nil_input (cw : Char → Nat) (maxW : Nat) : wrap_lines cw maxW [] = [[]] :=
  rfl

/-- C6 counterexample: a row whose text cells are all empty does not
get the absolute floor height (0.46 in = 46 hundredths); it gets the
badge minimum height 0.28 + 2*0.10 = 0.48 in = 48 hundredths, which is
strictly larger than the floor. -/
theorem row_height_floor_cex :
    compute_row_height (fun _ => 1) (fun _ => 1) 100 100 100 100 100 emptyRowR =
      BADGE_H + 2 * PAD_Y_CELL ∧
    compute_row_height (fun _ => 1) (fun _ => 1) 100 100 100 100 100 emptyRowR ≠ ROW_FLOOR := by
  decide

/-- C6 amended: the row-height calculator always returns
max(maxLines * lineHeight + 2 * verticalPadding, badge minimum,
absolute floor) with maxLines the maximum wrapped-line count over the
row's text cells (at least 1); a row whose text cells are all empty has
maxLines = 1 and height exactly the badge minimum (0.48 in), which
strictly exceeds the absolute floor (0.46 in), so the floor is not the
height of an all-empty row. -/
theorem row_height_amended (cwT cwB : Char → Nat) (w0 w4 w5 w6 w7 : Nat) (r : RowR)
    (h1 : r.tarjeta = []) (h2 : r.files_path = []) (h3 : r.peso = [])
    (h4 : r.desglose = []) (h5 : r.comentarios = []) :
    (∀ r' : RowR, compute_row_height cwT cwB w0 w4 w5 w6 w7 r' =
      max (max (maxLinesOf cwT cwB w0 w4 w5 w6 w7 r' * LINE_H + 2 * PAD_Y_CELL)
        (BADGE_H + 2 * PAD_Y_CELL)) ROW_FLOOR) ∧
    maxLinesOf cwT cwB w0 w4 w5 w6 w7 r = 1 ∧
    compute_row_height cwT cwB w0 w4 w5 w6 w7 r = BADGE_H + 2 * PAD_Y_CELL ∧
    ROW_FLOOR < BADGE_H + 2 * PAD_Y_CELL := by
  have hml : maxLinesOf cwT cwB w0 w4 w5 w6 w7 r = 1 := by
    simp [maxLinesOf, filesName, h1, h2, h3, h4, h5, wrap_lines_nil_input]
  refine ⟨fun r' => rfl, hml, ?_, by decide⟩
  simp [compute_row_height, hml, LINE_H, PAD_Y_CELL, BADGE_H, ROW_FLOOR]

theorem row_height_amended_witness :
    (emptyRowR.tarjeta = [] ∧ emptyRowR.files_path = [] ∧ emptyRowR.peso = [] ∧
      emptyRowR.desglose = [] ∧ emptyRowR.comentarios = []) ∧
    ((∀ r' : RowR, compute_row_height (fun _ => 1) (fun _ => 1) 100 100 100 100 100 r' =
      max (max (maxLinesOf (fun _ => 1) (fun _ => 1) 100 100 100 100 100 r' * LINE_H +
        2 * PAD_Y_CELL) (BADGE_H + 2 * PAD_Y_CELL)) ROW_FLOOR) ∧
    maxLinesOf (fun _ => 1) (fun _ => 1) 100 100 100 100 100 emptyRowR = 1 ∧
    compute_row_height (fun _ => 1) (fun _ => 1) 100 100 100 100 100 emptyRowR =
      BADGE_H + 2 * PAD_Y_CELL ∧
    ROW_FLOOR < BADGE_H + 2 * PAD_Y_CELL) :=
  ⟨⟨rfl, rfl, rfl, rfl, rfl⟩,
    row_height_amended (fun _ => 1) (fun _ => 1) 100 100 100 100 100 emptyRowR
      rfl rfl rfl rfl rfl⟩

/-
Defaulting claims.
-/

/-- C7 counterexample: the priority field of a fresh record (and of a
loaded record with the field absent) defaults to the second priority
option ("MEDIA"), not the first option of the enum as the claim
states. -/
theorem defaults_priority_cex :
    default_report.prioridad = PRIORITY_OPTIONS.getD 1 [] ∧
    default_report.prioridad ≠ PRIORITY_OPTIONS.getD 0 [] ∧
    (open_report_merge emptyPartialReport).prioridad ≠ PRIORITY_OPTIONS.getD 0 [] := by
  decide

/-- C7 amended: absent plain string fields default to the empty string,
an absent general status defaults to the first status option, an absent
priority defaults to the second priority option ("MEDIA"), and the
three per-row status fields default to "PENDIENTE", both in a fresh
record and when a record is loaded. -/
theorem defaults_amended (d : PartialReport) (r : PartialRow)
    (hpro : d.proyecto = none) (henc : d.encargado = none)
    (hst : d.status_general = none) (hpr : d.prioridad = none)
    (hb : r.backup_b = none) (he : r.backup_expo = none) (hx : r.proxies = none) :
    default_report.proyecto = [] ∧ default_report.encargado = [] ∧
    default_report.status_general = STATUS_OPTIONS.getD 0 [] ∧
    default_report.prioridad = PRIORITY_OPTIONS.getD 1 [] ∧
    (open_report_merge d).proyecto = [] ∧
    (open_report_merge d).encargado = [] ∧
    (open_report_merge d).status_general = STATUS_OPTIONS.getD 0 [] ∧
    (open_report_merge d).prioridad = PRIORITY_OPTIONS.getD 1 [] ∧
    (loadRow r).backup_b = some ("PENDIENTE".data) ∧
    (loadRow r).backup_expo = some ("PENDIENTE".data) ∧
    (loadRow r).proxies = some ("PENDIENTE".data) := by
  refine ⟨rfl, rfl, rfl, rfl, ?_, ?_, ?_, ?_, ?_, ?_, ?_⟩ <;>
    simp [open_report_merge, loadRow, default_report, hpro, henc, hst, hpr, hb, he, hx]

theorem defaults_amended_witness :
    (emptyPartialReport.proyecto = none ∧ emptyPartialRow.backup_b = none) ∧
    (default_report.proyecto = [] ∧ default_report.encargado = [] ∧
    default_report.status_general = STATUS_OPTIONS.getD 0 [] ∧
    default_report.prioridad = PRIORITY_OPTIONS.getD 1 [] ∧
    (open_report_merge emptyPartialReport).proyecto = [] ∧
    (open_report_merge emptyPartialReport).encargado = [] ∧
    (open_report_merge emptyPartialReport).status_general = STATUS_OPTIONS.getD 0 [] ∧
    (open_report_merge emptyPartialReport).prioridad = PRIORITY_OPTIONS.getD 1 [] ∧
    (loadRow emptyPartialRow).backup_b = some ("PENDIENTE".data) ∧
    (loadRow emptyPartialRow).backup_expo = some ("PENDIENTE".data) ∧
    (loadRow emptyPartialRow).proxies = some ("PENDIENTE".data)) :=
  ⟨⟨rfl, rfl⟩, defaults_amended emptyPartialReport emptyPartialRow rfl rfl rfl rfl rfl rfl rfl⟩

/-
Helper lemmas about widths, `pyStrip`, `splitOnChar` and `charSplit`.
-/

theorem width_append (cw : Char → Nat) (a b : List Char) :
    width cw (a ++ b) = width cw a + width cw b := by
  simp [width]

theorem width_sublist (cw : Char → Nat) {l1 l2 : List Char} (h : l1.Sublist l2) :
    width cw l1 ≤ width cw l2 := by
  induction h with
  | slnil => exact le_rfl
  | cons a h ih =>
    simp only [width, List.map_cons, List.sum_cons] at ih ⊢
    omega
  | cons₂ a h ih =>
    simp only [width, List.map_cons, List.sum_cons] at ih ⊢
    omega

theorem pyStripLeft_sublist (l : List Char) : (pyStripLeft l).Sublist l :=
  List.dropWhile_sublist pyWs

theorem pyStripRight_sublist (l : List Char) : (pyStripRight l).Sublist l := by
  have h := (List.dropWhile_sublist (l := l.reverse) pyWs).reverse
  rw [List.reverse_reverse] at h
  exact h

theorem pyStrip_sublist (l : List Char) : (pyStrip l).Sublist l :=
  (pyStripRight_sublist (pyStripLeft l)).trans (pyStripLeft_sublist l)

theorem width_pyStrip_le (cw : Char → Nat) (l : List Char) :
    width cw (pyStrip l) ≤ width cw l :=
  width_sublist cw (pyStrip_sublist l)

theorem mem_of_mem_pyStrip {c : Char} {l : List Char} (h : c ∈ pyStrip l) : c ∈ l :=
  (pyStrip_sublist l).subset h

theorem head?_dropWhile_not {p : Char → Bool} :
    ∀ (l : List Char) (c : Char), (l.dropWhile p).head? = some c → p c = false := by
  intro l
  induction l with
  | nil => intro c h; simp at h
  | cons a l ih =>
    intro c h
    rw [List.dropWhile_cons] at h
    split at h
    · exact ih c h
    · rename_i hpa
      simp only [List.head?_cons, Option.some.injEq] at h
      subst h
      exact Bool.of_not_eq_true hpa

theorem pyStripRight_decomp (l : List Char) :
    ∃ t, l = pyStripRight l ++ t ∧ ∀ c ∈ t, pyWs c = true := by
  refine ⟨(l.reverse.takeWhile pyWs).reverse, ?_, ?_⟩
  · have h := List.takeWhile_append_dropWhile (p := pyWs) (l := l.reverse)
    have h2 : l = (l.reverse.takeWhile pyWs ++ l.reverse.dropWhile pyWs).reverse := by
      rw [h, List.reverse_reverse]
    rw [List.reverse_append] at h2
    exact h2
  · intro c hc
    rw [List.mem_reverse] at hc
    exact List.mem_takeWhile_imp hc

theorem head?_pyStripRight {l : List Char} {c : Char} (h : (pyStripRight l).head? = some c) :
    l.head? = some c := by
  rcases pyStripRight_decomp l with ⟨t, hl, _⟩
  rw [hl]
  cases hsr : pyStripRight l with
  | nil => rw [hsr] at h; simp at h
  | cons a m =>
    rw [hsr] at h
    simp only [List.head?_cons, Option.some.injEq] at h
    simp [h]

theorem pyStrip_head_not_ws {l : List Char} {c : Char} (h : (pyStrip l).head? = some c) :
    pyWs c = false := by
  have h1 : (pyStripLeft l).head? = some c := head?_pyStripRight h
  exact head?_dropWhile_not l c h1

theorem pyStrip_getLast_not_ws {l : List Char} {c : Char} (h : (pyStrip l).getLast? = some c) :
    pyWs c = false := by
  have h1 : ((pyStripLeft l).reverse.dropWhile pyWs).head? = some c := by
    have := List.getLast?_reverse ((pyStripLeft l).reverse.dropWhile pyWs)
    rw [← this]
    exact h
  exact head?_dropWhile_not _ c h1

theorem mem_dropWhile_of_not {p : Char → Bool} {c : Char} {l : List Char}
    (hc : c ∈ l) (hp : p c = false) : c ∈ l.dropWhile p := by
  have h := List.takeWhile_append_dropWhile (p := p) (l := l)
  rw [← h] at hc
  rcases List.mem_append.mp hc with h1 | h1
  · have := List.mem_takeWhile_imp h1
    rw [hp] at this
    exact absurd this (by simp)
  · exact h1

theorem mem_pyStrip_of_not_ws {c : Char} {l : List Char} (hc : c ∈ l)
    (hws : pyWs c = false) : c ∈ pyStrip l := by
  have h1 : c ∈ pyStripLeft l := mem_dropWhile_of_not hc hws
  have h2 : c ∈ (pyStripLeft l).reverse := List.mem_reverse.mpr h1
  have h3 : c ∈ (pyStripLeft l).reverse.dropWhile pyWs := mem_dropWhile_of_not h2 hws
  exact List.mem_reverse.mpr h3

theorem pyStrip_ne_nil_of_mem {c : Char} {l : List Char} (hc : c ∈ l)
    (hws : pyWs c = false) : pyStrip l ≠ [] := by
  intro h
  have hmem := mem_pyStrip_of_not_ws hc hws
  rw [h] at hmem
  simp at hmem

theorem splitOnChar_ne_nil (sep : Char) : ∀ (l : List Char), splitOnChar sep l ≠ [] := by
  intro l
  induction l with
  | nil => simp [splitOnChar]
  | cons a l ih =>
    simp only [splitOnChar]
    split
    · simp
    · cases h : splitOnChar sep l with
      | nil => simp
      | cons t ts => simp

theorem splitOnChar_subset (sep : Char) :
    ∀ (l : List Char) (t : List Char), t ∈ splitOnChar sep l → ∀ c ∈ t, c ∈ l := by
  intro l
  induction l with
  | nil =>
    intro t ht c hc
    simp only [splitOnChar, List.mem_singleton] at ht
    subst ht
    simp at hc
  | cons a l ih =>
    intro t ht c hc
    simp only [splitOnChar] at ht
    split at ht
    · rcases List.mem_cons.mp ht with h1 | h1
      · subst h1; simp at hc
      · exact List.mem_cons_of_mem a (ih t h1 c hc)
    · rename_i hne
      cases hsp : splitOnChar sep l with
      | nil => exact absurd hsp (splitOnChar_ne_nil sep l)
      | cons t0 ts =>
        rw [hsp] at ht
        rcases List.mem_cons.mp ht with h1 | h1
        · subst h1
          rcases List.mem_cons.mp hc with h2 | h2
          · simp [h2]
          · have : c ∈ l := ih t0 (by rw [hsp]; exact List.mem_cons_self t0 ts) c h2
            exact List.mem_cons_of_mem a this
        · have : c ∈ l := ih t (by rw [hsp]; exact List.mem_cons_of_mem t0 h1) c hc
          exact List.mem_cons_of_mem a this

theorem splitOnChar_no_sep (sep : Char) :
    ∀ (l : List Char) (t : List Char), t ∈ splitOnChar sep l → sep ∉ t := by
  intro l
  induction l with
  | nil =>
    intro t ht
    simp only [splitOnChar, List.mem_singleton] at ht
    subst ht
    simp
  | cons a l ih =>
    intro t ht
    simp only [splitOnChar] at ht
    split at ht
    · rcases List.mem_cons.mp ht with h1 | h1
      · subst h1; simp
      · exact ih t h1
    · rename_i hne
      cases hsp : splitOnChar sep l with
      | nil => exact absurd hsp (splitOnChar_ne_nil sep l)
      | cons t0 ts =>
        rw [hsp] at ht
        rcases List.mem_cons.mp ht with h1 | h1
        · subst h1
          intro hmem
          rcases List.mem_cons.mp hmem with h2 | h2
          · exact hne h2.symm
          · exact ih t0 (by rw [hsp]; exact List.mem_cons_self t0 ts) h2
        · exact ih t (by rw [hsp]; exact List.mem_cons_of_mem t0 h1)

theorem splitOnChar_cons_ne (sep a : Char) (l : List Char) (h : ¬ a = sep) :
    ∃ t0 ts, splitOnChar sep (a :: l) = (a :: t0) :: ts := by
  simp only [splitOnChar, if_neg h]
  cases hsp : splitOnChar sep l with
  | nil => exact absurd hsp (splitOnChar_ne_nil sep l)
  | cons t0 ts => exact ⟨t0, ts, rfl⟩

theorem charSplit_sound (cw : Char → Nat) (maxW : Nat) :
    ∀ (tok buf : List Char),
      (width cw buf ≤ maxW ∨ ∃ c, buf = [c] ∧ maxW < cw c) →
      ∀ l ∈ charSplit cw maxW tok buf,
        width cw l ≤ maxW ∨ ∃ c, l = [c] ∧ maxW < cw c := by
  intro tok
  induction tok with
  | nil =>
    intro buf hQ l hl
    simp only [charSplit] at hl
    split at hl
    · simp at hl
    · simp only [List.mem_singleton] at hl
      subst hl
      exact hQ
  | cons ch rest ih =>
    intro buf hQ l hl
    simp only [charSplit] at hl
    split at hl
    · rename_i hfit
      exact ih (buf ++ [ch]) (Or.inl hfit) l hl
    · rename_i hfit
      rcases List.mem_append.mp hl with h1 | h1
      · split at h1
        · simp at h1
        · simp only [List.mem_singleton] at h1
          subst h1
          exact hQ
      · refine ih [ch] ?_ l h1
        rcases le_or_lt (cw ch) maxW with h2 | h2
        · left; simp [width, h2]
        · exact Or.inr ⟨ch, rfl, h2⟩

theorem charSplit_chars (cw : Char → Nat) (maxW : Nat) :
    ∀ (tok buf : List Char) (l : List Char) (c : Char),
      l ∈ charSplit cw maxW tok buf → c ∈ l → c ∈ buf ∨ c ∈ tok := by
  intro tok
  induction tok with
  | nil =>
    intro buf l c hl hc
    simp only [charSplit] at hl
    split at hl
    · simp at hl
    · simp only [List.mem_singleton] at hl
      subst hl
      exact Or.inl hc
  | cons ch rest ih =>
    intro buf l c hl hc
    simp only [charSplit] at hl
    split at hl
    · rcases ih (buf ++ [ch]) l c hl hc with h1 | h1
      · rcases List.mem_append.mp h1 with h2 | h2
        · exact Or.inl h2
        · simp only [List.mem_singleton] at h2
          subst h2
          exact Or.inr (List.mem_cons_self c rest)
      · exact Or.inr (List.mem_cons_of_mem ch h1)
    · rcases List.mem_append.mp hl with h1 | h1
      · split at h1
        · simp at h1
        · simp only [List.mem_singleton] at h1
          subst h1
          exact Or.inl hc
      · rcases ih [ch] l c h1 hc with h2 | h2
        · simp only [List.mem_singleton] at h2
          subst h2
          exact Or.inr (List.mem_cons_self c rest)
        · exact Or.inr (List.mem_cons_of_mem ch h2)

theorem charSplit_chunks_ne_nil (cw : Char → Nat) (maxW : Nat) :
    ∀ (tok buf l : List Char), l ∈ charSplit cw maxW tok buf → l ≠ [] := by
  intro tok
  induction tok with
  | nil =>
    intro buf l hl
    simp only [charSplit] at hl
    split at hl
    · simp at hl
    · rename_i hbuf
      simp only [List.mem_singleton] at hl
      subst hl
      exact hbuf
  | cons ch rest ih =>
    intro buf l hl
    simp only [charSplit] at hl
    split at hl
    · exact ih _ l hl
    · rcases List.mem_append.mp hl with h1 | h1
      · split at h1
        · simp at h1
        · rename_i hbuf
          simp only [List.mem_singleton] at h1
          subst h1
          exact hbuf
      · exact ih [ch] l h1

theorem charSplit_result_ne_nil_aux (cw : Char → Nat) (maxW : Nat) :
    ∀ (rest buf : List Char), buf ≠ [] → charSplit cw maxW rest buf ≠ [] := by
  intro rest
  induction rest with
  | nil =>
    intro buf hbuf
    simp [charSplit, hbuf]
  | cons ch rest ih =>
    intro buf hbuf
    simp only [charSplit]
    split
    · exact ih (buf ++ [ch]) (by simp)
    · intro h
      rw [List.append_eq_nil] at h
      exact ih [ch] (by simp) h.2

theorem charSplit_result_ne_nil (cw : Char → Nat) (maxW : Nat) (tok : List Char)
    (htok : tok ≠ []) : charSplit cw maxW tok [] ≠ [] := by
  cases tok with
  | nil => exact absurd rfl htok
  | cons ch rest =>
    simp only [charSplit, List.nil_append]
    split
    · exact charSplit_result_ne_nil_aux cw maxW rest [ch] (by simp)
    · intro h
      rw [List.append_eq_nil] at h
      exact charSplit_result_ne_nil_aux cw maxW rest [ch] (by simp) h.2

/-
Invariants of the `wrap_lines` fold.
-/

theorem flushSt_lines_mem {st : WrapSt} {l : List Char} (h : l ∈ (flushSt st).lines) :
    l ∈ st.lines ∨ (l = pyStrip st.cur ∧ pyStrip st.cur ≠ []) := by
  simp only [flushSt] at h
  split at h
  · exact Or.inl h
  · rename_i hne
    rcases List.mem_append.mp h with h1 | h1
    · exact Or.inl h1
    · simp only [List.mem_singleton] at h1
      exact Or.inr ⟨h1, hne⟩

theorem flushSt_lines_ne {st : WrapSt} (h : st.lines ≠ []) : (flushSt st).lines ≠ [] := by
  simp only [flushSt]
  split
  · exact h
  · simp

theorem flushSt_lines_ne_of_cur {st : WrapSt} {c : Char} (hc : c ∈ st.cur)
    (hws : pyWs c = false) : (flushSt st).lines ≠ [] := by
  simp only [flushSt]
  split
  · rename_i hnil
    exact absurd hnil (pyStrip_ne_nil_of_mem hc hws)
  · simp

theorem mem_of_head?_eq {l : List Char} {c : Char} (h : l.head? = some c) : c ∈ l := by
  cases l with
  | nil => simp at h
  | cons a m =>
    simp only [List.head?_cons, Option.some.injEq] at h
    subst h
    exact List.mem_cons_self a m

theorem mem_of_getLast?_eq {l : List Char} {c : Char} (h : l.getLast? = some c) : c ∈ l := by
  have h1 : l.reverse.head? = some c := by rw [List.head?_reverse]; exact h
  exact List.mem_reverse.mp (mem_of_head?_eq h1)

theorem pyStrip_clean {cur : List Char} (hc : '\t' ∉ cur) :
    (pyStrip cur).head? ≠ some ' ' ∧ (pyStrip cur).getLast? ≠ some ' ' ∧ '\t' ∉ pyStrip cur := by
  refine ⟨?_, ?_, fun h => hc (mem_of_mem_pyStrip h)⟩
  · intro h
    have := pyStrip_head_not_ws h
    simp [pyWs] at this
  · intro h
    have := pyStrip_getLast_not_ws h
    simp [pyWs] at this

theorem addToken_inv_width (cw : Char → Nat) (maxW : Nat) (st : WrapSt) (tok : List Char)
    (hl : ∀ l ∈ st.lines, width cw l ≤ maxW ∨ ∃ c, l = [c] ∧ maxW < cw c)
    (hc : width cw st.cur ≤ maxW) :
    (∀ l ∈ (addToken cw maxW st tok).lines,
      width cw l ≤ maxW ∨ ∃ c, l = [c] ∧ maxW < cw c) ∧
    width cw (addToken cw maxW st tok).cur ≤ maxW := by
  simp only [addToken]
  split
  · rename_i hfit
    exact ⟨hl, hfit⟩
  · rename_i hnofit
    have hst1 : ∀ l ∈ (if st.cur = [] then st else flushSt st).lines,
        width cw l ≤ maxW ∨ ∃ c, l = [c] ∧ maxW < cw c := by
      intro l hmem
      split at hmem
      · exact hl l hmem
      · rcases flushSt_lines_mem hmem with h1 | ⟨h1, _⟩
        · exact hl l h1
        · subst h1
          exact Or.inl ((width_pyStrip_le cw st.cur).trans hc)
    split
    · rename_i hfit2
      exact ⟨hst1, hfit2⟩
    · refine ⟨?_, by simp [width]⟩
      intro l hmem
      rcases List.mem_append.mp hmem with h1 | h1
      · exact hst1 l h1
      · exact charSplit_sound cw maxW tok [] (Or.inl (by simp [width])) l h1

theorem foldl_inv_width (cw : Char → Nat) (maxW : Nat) :
    ∀ (ws : List (List Char)) (st : WrapSt),
      (∀ l ∈ st.lines, width cw l ≤ maxW ∨ ∃ c, l = [c] ∧ maxW < cw c) →
      width cw st.cur ≤ maxW →
      (∀ l ∈ (ws.foldl (fun st w => if w = [] then st else addToken cw maxW st w) st).lines,
        width cw l ≤ maxW ∨ ∃ c, l = [c] ∧ maxW < cw c) ∧
      width cw (ws.foldl (fun st w => if w = [] then st else addToken cw maxW st w) st).cur
        ≤ maxW := by
  intro ws
  induction ws with
  | nil => intro st h1 h2; exact ⟨h1, h2⟩
  | cons w ws ih =>
    intro st h1 h2
    simp only [List.foldl_cons]
    by_cases hw : w = []
    · rw [if_pos hw]
      exact ih st h1 h2
    · rw [if_neg hw]
      rcases addToken_inv_width cw maxW st w h1 h2 with ⟨h3, h4⟩
      exact ih _ h3 h4

theorem addToken_inv_clean (cw : Char → Nat) (maxW : Nat) (st : WrapSt) (tok : List Char)
    (hsp : ' ' ∉ tok) (htb : '\t' ∉ tok)
    (hl : ∀ l ∈ st.lines,
      l ≠ [] ∧ l.head? ≠ some ' ' ∧ l.getLast? ≠ some ' ' ∧ '\t' ∉ l)
    (hc : '\t' ∉ st.cur) :
    (∀ l ∈ (addToken cw maxW st tok).lines,
      l ≠ [] ∧ l.head? ≠ some ' ' ∧ l.getLast? ≠ some ' ' ∧ '\t' ∉ l) ∧
    '\t' ∉ (addToken cw maxW st tok).cur := by
  have hflush : ∀ l ∈ (flushSt st).lines,
      l ≠ [] ∧ l.head? ≠ some ' ' ∧ l.getLast? ≠ some ' ' ∧ '\t' ∉ l := by
    intro l hmem
    rcases flushSt_lines_mem hmem with h1 | ⟨h1, h2⟩
    · exact hl l h1
    · subst h1
      rcases pyStrip_clean hc with ⟨p1, p2, p3⟩
      exact ⟨h2, p1, p2, p3⟩
  simp only [addToken]
  split
  · rename_i hfit
    refine ⟨hl, ?_⟩
    intro h
    rcases List.mem_append.mp (mem_of_mem_pyStrip h) with h1 | h1
    · rcases List.mem_append.mp h1 with h2 | h2
      · exact hc h2
      · simp at h2
    · exact htb h1
  · rename_i hnofit
    have hst1 : ∀ l ∈ (if st.cur = [] then st else flushSt st).lines,
        l ≠ [] ∧ l.head? ≠ some ' ' ∧ l.getLast? ≠ some ' ' ∧ '\t' ∉ l := by
      intro l hmem
      split at hmem
      · exact hl l hmem
      · exact hflush l hmem
    split
    · exact ⟨hst1, htb⟩
    · refine ⟨?_, by simp⟩
      intro l hmem
      rcases List.mem_append.mp hmem with h1 | h1
      · exact hst1 l h1
      · have hchars : ∀ c ∈ l, c ∈ tok := by
          intro c hcl
          rcases charSplit_chars cw maxW tok [] l c h1 hcl with h2 | h2
          · simp at h2
          · exact h2
        refine ⟨charSplit_chunks_ne_nil cw maxW tok [] l h1, ?_, ?_, ?_⟩
        · intro h
          exact hsp (hchars ' ' (mem_of_head?_eq h))
        · intro h
          exact hsp (hchars ' ' (mem_of_getLast?_eq h))
        · intro h
          exact htb (hchars '\t' h)

theorem foldl_inv_clean (cw : Char → Nat) (maxW : Nat) :
    ∀ (ws : List (List Char)) (st : WrapSt),
      (∀ w ∈ ws, ' ' ∉ w ∧ '\t' ∉ w) →
      (∀ l ∈ st.lines,
        l ≠ [] ∧ l.head? ≠ some ' ' ∧ l.getLast? ≠ some ' ' ∧ '\t' ∉ l) →
      '\t' ∉ st.cur →
      (∀ l ∈ (ws.foldl (fun st w => if w = [] then st else addToken cw maxW st w) st).lines,
        l ≠ [] ∧ l.head? ≠ some ' ' ∧ l.getLast? ≠ some ' ' ∧ '\t' ∉ l) ∧
      '\t' ∉ (ws.foldl (fun st w => if w = [] then st else addToken cw maxW st w) st).cur := by
  intro ws
  induction ws with
  | nil => intro st _ h1 h2; exact ⟨h1, h2⟩
  | cons w ws ih =>
    intro st hw h1 h2
    simp only [List.foldl_cons]
    by_cases hwe : w = []
    · rw [if_pos hwe]
      exact ih st (fun v hv => hw v (List.mem_cons_of_mem w hv)) h1 h2
    · rw [if_neg hwe]
      rcases hw w (List.mem_cons_self w ws) with ⟨hsp, htb⟩
      rcases addToken_inv_clean cw maxW st w hsp htb h1 h2 with ⟨h3, h4⟩
      exact ih _ (fun v hv => hw v (List.mem_cons_of_mem w hv)) h3 h4

theorem addToken_K_establish (cw : Char → Nat) (maxW : Nat) (st : WrapSt) (tok : List Char)
    (c : Char) (hc : c ∈ tok) (hws : pyWs c = false) :
    (addToken cw maxW st tok).lines ≠ [] ∨
      ∃ c' ∈ (addToken cw maxW st tok).cur, pyWs c' = false := by
  simp only [addToken]
  split
  · refine Or.inr ⟨c, ?_, hws⟩
    exact mem_pyStrip_of_not_ws (List.mem_append.mpr (Or.inr hc)) hws
  · split
    · exact Or.inr ⟨c, hc, hws⟩
    · left
      intro h
      rw [List.append_eq_nil] at h
      exact charSplit_result_ne_nil cw maxW tok (by intro h0; rw [h0] at hc; simp at hc) h.2

theorem addToken_K_preserve (cw : Char → Nat) (maxW : Nat) (st : WrapSt) (tok : List Char)
    (hK : st.lines ≠ [] ∨ ∃ c ∈ st.cur, pyWs c = false) :
    (addToken cw maxW st tok).lines ≠ [] ∨
      ∃ c' ∈ (addToken cw maxW st tok).cur, pyWs c' = false := by
  simp only [addToken]
  rcases hK with hK | ⟨c, hcur, hws⟩
  · split
    · exact Or.inl hK
    · by_cases hce : st.cur = []
      · rw [if_pos hce]
        split
        · exact Or.inl hK
        · left
          intro h
          rw [List.append_eq_nil] at h
          exact hK h.1
      · rw [if_neg hce]
        have hst1 := flushSt_lines_ne hK
        split
        · exact Or.inl hst1
        · left
          intro h
          rw [List.append_eq_nil] at h
          exact hst1 h.1
  · split
    · refine Or.inr ⟨c, ?_, hws⟩
      exact mem_pyStrip_of_not_ws
        (List.mem_append.mpr (Or.inl (List.mem_append.mpr (Or.inl hcur)))) hws
    · have hcur_ne : st.cur ≠ [] := by
        intro h0
        rw [h0] at hcur
        simp at hcur
      rw [if_neg hcur_ne]
      have hst1 : (flushSt st).lines ≠ [] := flushSt_lines_ne_of_cur hcur hws
      split
      · exact Or.inl hst1
      · left
        intro h
        rw [List.append_eq_nil] at h
        exact hst1 h.1

theorem foldl_K (cw : Char → Nat) (maxW : Nat) :
    ∀ (ws : List (List Char)) (st : WrapSt),
      (st.lines ≠ [] ∨ ∃ c ∈ st.cur, pyWs c = false) →
      ((ws.foldl (fun st w => if w = [] then st else addToken cw maxW st w) st).lines ≠ [] ∨
        ∃ c ∈ (ws.foldl (fun st w => if w = [] then st else addToken cw maxW st w) st).cur,
          pyWs c = false) := by
  intro ws
  induction ws with
  | nil => intro st h; exact h
  | cons w ws ih =>
    intro st h
    simp only [List.foldl_cons]
    by_cases hwe : w = []
    · rw [if_pos hwe]
      exact ih st h
    · rw [if_neg hwe]
      exact ih _ (addToken_K_preserve cw maxW st w h)

theorem tab_not_mem_detab (l : List Char) : '\t' ∉ detab l := by
  intro h
  simp only [detab, List.mem_map] at h
  rcases h with ⟨a, _, ha⟩
  by_cases h2 : a = '\t'
  · rw [if_pos h2] at ha
    exact absurd ha (by decide)
  · rw [if_neg h2] at ha
    exact h2 ha

theorem mem_detab_of_not_tab {c : Char} {l : List Char} (hc : c ∈ l) (h : c ≠ '\t') :
    c ∈ detab l := by
  simp only [detab, List.mem_map]
  exact ⟨c, hc, by rw [if_neg h]⟩

/-- C4: for every metric, wrap width and input string, the word wrapper
returns a (finite) non-empty list of lines, and every returned line
either has measured width at most the wrap width or is a single
character whose width alone exceeds it. -/
theorem wrap_lines_width_spec (cw : Char → Nat) (maxW : Nat) (text : List Char) :
    wrap_lines cw maxW text ≠ [] ∧
    ∀ l ∈ wrap_lines cw maxW text,
      width cw l ≤ maxW ∨ ∃ c, l = [c] ∧ maxW < cw c := by
  simp only [wrap_lines]
  split
  · refine ⟨by simp, ?_⟩
    intro l hl
    simp only [List.mem_singleton] at hl
    subst hl
    exact Or.inl (by simp [width])
  · rcases foldl_inv_width cw maxW (splitOnChar ' ' (pyStrip (detab text))) ⟨[], []⟩
      (by simp) (by simp [width]) with ⟨h1, h2⟩
    have h3 : ∀ l ∈ (flushSt ((splitOnChar ' ' (pyStrip (detab text))).foldl
        (fun st w => if w = [] then st else addToken cw maxW st w) ⟨[], []⟩)).lines,
        width cw l ≤ maxW ∨ ∃ c, l = [c] ∧ maxW < cw c := by
      intro l hmem
      rcases flushSt_lines_mem hmem with hm | ⟨hm, _⟩
      · exact h1 l hm
      · subst hm
        exact Or.inl ((width_pyStrip_le cw _).trans h2)
    split
    · refine ⟨by simp, ?_⟩
      intro l hl
      simp only [List.mem_singleton] at hl
      subst hl
      exact Or.inl (by simp [width])
    · rename_i hne
      exact ⟨hne, h3⟩

theorem wrap_lines_width_spec_witness :
    wrap_lines (fun _ => 1) 2 ("a b".data) ≠ [] ∧
    ∀ l ∈ wrap_lines (fun _ => 1) 2 ("a b".data),
      width (fun _ => 1) l ≤ 2 ∨ ∃ c, l = [c] ∧ 2 < (fun _ => (1 : Nat)) c :=
  wrap_lines_width_spec (fun _ => 1) 2 ("a b".data)

/-- C10: every line returned by the word wrapper begins and ends with a
non-space character and contains no tab; and if the input contains any
non-whitespace character then every returned line is non-empty. -/
theorem wrap_lines_clean_spec (cw : Char → Nat) (maxW : Nat) (text : List Char) :
    (∀ l ∈ wrap_lines cw maxW text,
      l.head? ≠ some ' ' ∧ l.getLast? ≠ some ' ' ∧ '\t' ∉ l) ∧
    ((∃ c ∈ text, pyWs c = false) → ∀ l ∈ wrap_lines cw maxW text, l ≠ []) := by
  simp only [wrap_lines]
  split
  · rename_i hnil
    refine ⟨?_, ?_⟩
    · intro l hl
      simp only [List.mem_singleton] at hl
      subst hl
      exact ⟨by simp, by simp, by simp⟩
    · rintro ⟨c, hc, hws⟩
      exfalso
      have hct : c ≠ '\t' := by
        intro h0
        rw [h0] at hws
        exact absurd hws (by decide)
      exact pyStrip_ne_nil_of_mem (mem_detab_of_not_tab hc hct) hws hnil
  · rename_i hsne
    have hwords : ∀ w ∈ splitOnChar ' ' (pyStrip (detab text)), ' ' ∉ w ∧ '\t' ∉ w := by
      intro w hw
      refine ⟨splitOnChar_no_sep ' ' _ w hw, ?_⟩
      intro h
      have h1 : '\t' ∈ pyStrip (detab text) := splitOnChar_subset ' ' _ w hw '\t' h
      exact tab_not_mem_detab text (mem_of_mem_pyStrip h1)
    rcases foldl_inv_clean cw maxW (splitOnChar ' ' (pyStrip (detab text))) ⟨[], []⟩
      hwords (by simp) (by simp) with ⟨h1, h2⟩
    have hK : ((splitOnChar ' ' (pyStrip (detab text))).foldl
        (fun st w => if w = [] then st else addToken cw maxW st w) ⟨[], []⟩).lines ≠ [] ∨
        ∃ c ∈ ((splitOnChar ' ' (pyStrip (detab text))).foldl
          (fun st w => if w = [] then st else addToken cw maxW st w) ⟨[], []⟩).cur,
          pyWs c = false := by
      cases hsp : pyStrip (detab text) with
      | nil => exact absurd hsp hsne
      | cons c0 srest =>
        have hc0 : pyWs c0 = false := by
          refine pyStrip_head_not_ws (l := detab text) ?_
          rw [hsp]
          simp
        have hc0sp : ¬ c0 = ' ' := by
          intro h0
          rw [h0] at hc0
          exact absurd hc0 (by decide)
        rcases splitOnChar_cons_ne ' ' c0 srest hc0sp with ⟨t0, ts, hts⟩
        rw [hts]
        simp only [List.foldl_cons]
        rw [if_neg (by simp)]
        refine foldl_K cw maxW ts _ ?_
        exact addToken_K_establish cw maxW ⟨[], []⟩ (c0 :: t0) c0
          (List.mem_cons_self c0 t0) hc0
    have hfl : (flushSt ((splitOnChar ' ' (pyStrip (detab text))).foldl
        (fun st w => if w = [] then st else addToken cw maxW st w) ⟨[], []⟩)).lines ≠ [] := by
      rcases hK with hK | ⟨c, hcur, hws⟩
      · exact flushSt_lines_ne hK
      · exact flushSt_lines_ne_of_cur hcur hws
    have h3 : ∀ l ∈ (flushSt ((splitOnChar ' ' (pyStrip (detab text))).foldl
        (fun st w => if w = [] then st else addToken cw maxW st w) ⟨[], []⟩)).lines,
        l ≠ [] ∧ l.head? ≠ some ' ' ∧ l.getLast? ≠ some ' ' ∧ '\t' ∉ l := by
      intro l hmem
      rcases flushSt_lines_mem hmem with hm | ⟨hm, hm2⟩
      · exact h1 l hm
      · subst hm
        rcases pyStrip_clean h2 with ⟨p1, p2, p3⟩
        exact ⟨hm2, p1, p2, p3⟩
    rw [if_neg hfl]
    exact ⟨fun l hl => (h3 l hl).2, fun _ l hl => (h3 l hl).1⟩

theorem wrap_lines_clean_spec_witness :
    (∃ c ∈ ("a b".data), pyWs c = false) ∧
    ((∀ l ∈ wrap_lines (fun _ => 1) 2 ("a b".data),
      l.head? ≠ some ' ' ∧ l.getLast? ≠ some ' ' ∧ '\t' ∉ l) ∧
    ((∃ c ∈ ("a b".data), pyWs c = false) →
      ∀ l ∈ wrap_lines (fun _ => 1) 2 ("a b".data), l ≠ [])) :=
  ⟨by decide, wrap_lines_clean_spec (fun _ => 1) 2 ("a b".data)⟩

/-
Helper lemmas about indexing, `findNl`, `scanFit` and `skipSpacesFuel`.
-/

theorem getD_drop_char (l : List Char) (s k : Nat) :
    (l.drop s).getD k ' ' = l.getD (s + k) ' ' := by
  simp [List.getD_eq_getElem?_getD, List.getElem?_drop]

theorem getD_take_char {l : List Char} {m k : Nat} (h : k < m) :
    (l.take m).getD k ' ' = l.getD k ' ' := by
  simp [List.getD_eq_getElem?_getD, List.getElem?_take_of_lt h]

theorem getD_append_middle (pre : List Char) (c : Char) (r : List Char) (d : Char) :
    (pre ++ c :: r).getD pre.length d = c := by
  induction pre with
  | nil => rfl
  | cons a pre ih => simpa using ih

theorem findNlAux_some :
    ∀ (l : List Char) (idx r : Nat), findNlAux l idx = some r →
      idx ≤ r ∧ r - idx < l.length ∧ l.getD (r - idx) ' ' = '\n' := by
  intro l
  induction l with
  | nil => intro idx r h; simp [findNlAux] at h
  | cons c cs ih =>
    intro idx r h
    simp only [findNlAux] at h
    split at h
    · rename_i hc
      simp only [Option.some.injEq] at h
      subst h
      refine ⟨le_rfl, by simp, ?_⟩
      rw [Nat.sub_self, List.getD_cons_zero]
      exact hc
    · rcases ih (idx + 1) r h with ⟨h1, h2, h3⟩
      refine ⟨by omega, by simp only [List.length_cons]; omega, ?_⟩
      have he : r - idx = (r - (idx + 1)) + 1 := by omega
      rw [he, List.getD_cons_succ]
      exact h3

theorem findNlAux_none :
    ∀ (l : List Char) (idx : Nat), findNlAux l idx = none →
      ∀ j, j < l.length → l.getD j ' ' ≠ '\n' := by
  intro l
  induction l with
  | nil => intro idx h j hj; simp at hj
  | cons c cs ih =>
    intro idx h j hj
    simp only [findNlAux] at h
    split at h
    · simp at h
    · rename_i hc
      cases j with
      | zero =>
        rw [List.getD_cons_zero]
        exact hc
      | succ j =>
        rw [List.getD_cons_succ]
        exact ih (idx + 1) h j (by simp only [List.length_cons] at hj; omega)

theorem findNl_some {text : List Char} {s r : Nat} (h : findNl text s = some r) :
    s ≤ r ∧ r < text.length ∧ text.getD r ' ' = '\n' := by
  rcases findNlAux_some (text.drop s) s r h with ⟨h1, h2, h3⟩
  rw [List.length_drop] at h2
  rw [getD_drop_char, Nat.add_sub_cancel' h1] at h3
  exact ⟨h1, by omega, h3⟩

theorem findNl_none {text : List Char} {s : Nat} (h : findNl text s = none) :
    ∀ j, s ≤ j → j < text.length → text.getD j ' ' ≠ '\n' := by
  intro j h1 h2
  have h3 := findNlAux_none (text.drop s) s h (j - s) (by rw [List.length_drop]; omega)
  rwa [getD_drop_char, Nat.add_sub_cancel' h1] at h3

theorem scanFit_spec (cw : Char → Nat) (maxW : Nat) (para : List Char) :
    ∀ (rest pre : List Char) (i best : Nat) (last : Option Nat),
      para = pre ++ rest → i = pre.length → best ≤ i →
      (∀ ls, last = some ls → ls < i ∧ para.getD ls ' ' = ' ') →
      (scanFit cw maxW pre rest i best last).1 ≤ para.length ∧
      (∀ ls, (scanFit cw maxW pre rest i best last).2 = some ls →
        ls < para.length ∧ para.getD ls ' ' = ' ') := by
  intro rest
  induction rest with
  | nil =>
    intro pre i best last hpara hi hbest hlast
    simp only [scanFit]
    have hlen : para.length = pre.length := by rw [hpara]; simp
    refine ⟨by omega, ?_⟩
    intro ls hls
    rcases hlast ls hls with ⟨h1, h2⟩
    exact ⟨by omega, h2⟩
  | cons c rest' ih =>
    intro pre i best last hpara hi hbest hlast
    simp only [scanFit]
    have hilt : i < para.length := by
      rw [hpara, hi]
      simp only [List.length_append, List.length_cons]
      omega
    have hlast1 : ∀ ls, (if c = ' ' then some i else last) = some ls →
        ls < i + 1 ∧ para.getD ls ' ' = ' ' := by
      intro ls hls
      split at hls
      · rename_i hc
        simp only [Option.some.injEq] at hls
        subst hls
        refine ⟨by omega, ?_⟩
        rw [hpara, hi, getD_append_middle pre c rest' ' ']
        exact hc
      · rcases hlast ls hls with ⟨h1, h2⟩
        exact ⟨by omega, h2⟩
    split
    · refine ih (pre ++ [c]) (i + 1) (i + 1) _ ?_ ?_ le_rfl hlast1
      · rw [hpara]
        simp
      · simp [hi]
    · refine ⟨by omega, ?_⟩
      intro ls hls
      rcases hlast1 ls hls with ⟨h1, h2⟩
      exact ⟨by omega, h2⟩

theorem skipSpaces_spec (text : List Char) :
    ∀ (fuel off : Nat),
      off ≤ skipSpacesFuel text fuel off ∧
      skipSpacesFuel text fuel off ≤ off + fuel ∧
      ∀ j, off ≤ j → j < skipSpacesFuel text fuel off → text.getD j ' ' = ' ' := by
  intro fuel
  induction fuel with
  | zero =>
    intro off
    simp only [skipSpacesFuel]
    refine ⟨le_rfl, by omega, ?_⟩
    intro j h1 h2
    omega
  | succ fuel ih =>
    intro off
    simp only [skipSpacesFuel]
    split
    · rename_i hsp
      rcases ih (off + 1) with ⟨h1, h2, h3⟩
      refine ⟨by omega, by omega, ?_⟩
      intro j hj1 hj2
      by_cases hje : j = off
      · subst hje; exact hsp
      · exact h3 j (by omega) hj2
    · refine ⟨le_rfl, by omega, ?_⟩
      intro j h1 h2
      omega

theorem wto_cut_helper (text : List Char) (off pe m : Nat)
    (hpe_le : pe ≤ text.length) (hpe_gt : off < pe) (h1m : 1 ≤ m) (hm : m ≤ pe - off) :
    off + (((text.drop off).take (pe - off)).take m).length ≤ off + m ∧
    off < off + m ∧ off + m ≤ text.length ∧
    ((text.drop off).take (pe - off)).take m =
      (text.drop off).take ((((text.drop off).take (pe - off)).take m).length) ∧
    (∀ j, off + (((text.drop off).take (pe - off)).take m).length ≤ j → j < off + m →
      text.getD j ' ' = ' ' ∨ text.getD j ' ' = '\n') := by
  have hlen : (((text.drop off).take (pe - off)).take m).length = m := by
    simp only [List.length_take, List.length_drop]
    omega
  refine ⟨by omega, by omega, by omega, ?_, ?_⟩
  · rw [hlen, List.take_take, Nat.min_eq_left hm]
  · intro j hj1 hj2
    rw [hlen] at hj1
    omega

theorem wto_branches (cw : Char → Nat) (text : List Char) (maxW off pe nend : Nat)
    (hpe_le : pe ≤ text.length) (hpe_gt : off < pe)
    (hne1 : pe ≤ nend) (hne2 : nend ≤ text.length)
    (hgap : ∀ j, pe ≤ j → j < nend → text.getD j ' ' = '\n') :
    ∃ l next,
      (let para := (text.drop off).take (pe - off)
       let scan := scanFit cw maxW [] para 0 0 none
       if scan.1 = para.length then
         ((some (para, off) : Option (List Char × Nat)), nend)
       else
         match scan.2 with
         | some ls =>
           if 0 < ls then
             (some (para.take ls, off),
               skipSpacesFuel text (pe - (off + ls + 1)) (off + ls + 1))
           else (some (para.take (max 1 scan.1), off), off + max 1 scan.1)
         | none => (some (para.take (max 1 scan.1), off), off + max 1 scan.1)) =
        (some (l, off), next) ∧
      off + l.length ≤ next ∧ off < next ∧ next ≤ text.length ∧
      l = (text.drop off).take l.length ∧
      (∀ j, off + l.length ≤ j → j < next →
        text.getD j ' ' = ' ' ∨ text.getD j ' ' = '\n') := by
  have hplen : ((text.drop off).take (pe - off)).length = pe - off := by
    simp only [List.length_take, List.length_drop]
    omega
  have hpget : ∀ k, k < pe - off →
      ((text.drop off).take (pe - off)).getD k ' ' = text.getD (off + k) ' ' := by
    intro k hk
    rw [getD_take_char hk, getD_drop_char]
  rcases scanFit_spec cw maxW ((text.drop off).take (pe - off))
      ((text.drop off).take (pe - off)) [] 0 0 none (by simp) rfl le_rfl
      (by intro ls hls; simp at hls) with ⟨hs1, hs2⟩
  by_cases hfull : (scanFit cw maxW [] ((text.drop off).take (pe - off)) 0 0 none).1 =
      ((text.drop off).take (pe - off)).length
  · refine ⟨(text.drop off).take (pe - off), nend, ?_, ?_, by omega, hne2, ?_, ?_⟩
    · dsimp only []
      rw [if_pos hfull]
    · rw [hplen]
      omega
    · rw [hplen]
    · intro j hj1 hj2
      rw [hplen] at hj1
      exact Or.inr (hgap j (by omega) hj2)
  · cases hls : (scanFit cw maxW [] ((text.drop off).take (pe - off)) 0 0 none).2 with
    | some ls =>
      rcases hs2 ls hls with ⟨hls1, hls2⟩
      rw [hplen] at hls1
      by_cases hpos : 0 < ls
      · rcases skipSpaces_spec text (pe - (off + ls + 1)) (off + ls + 1) with ⟨hk1, hk2, hk3⟩
        have hlen_l : (((text.drop off).take (pe - off)).take ls).length = ls := by
          simp only [List.length_take, List.length_drop]
          omega
        refine ⟨((text.drop off).take (pe - off)).take ls,
          skipSpacesFuel text (pe - (off + ls + 1)) (off + ls + 1), ?_, ?_, ?_, ?_, ?_, ?_⟩
        · dsimp only []
          rw [if_neg hfull, hls]
          dsimp only []
          rw [if_pos hpos]
        · rw [hlen_l]; omega
        · omega
        · omega
        · rw [hlen_l, List.take_take, Nat.min_eq_left (by omega : ls ≤ pe - off)]
        · intro j hj1 hj2
          rw [hlen_l] at hj1
          by_cases hje : j = off + ls
          · subst hje
            left
            rw [← hpget ls hls1]
            exact hls2
          · left
            exact hk3 j (by omega) hj2
      · have hb_lt : (scanFit cw maxW [] ((text.drop off).take (pe - off)) 0 0 none).1 <
            pe - off := by
          rw [hplen] at hfull hs1
          omega
        rcases wto_cut_helper text off pe
            (max 1 (scanFit cw maxW [] ((text.drop off).take (pe - off)) 0 0 none).1)
            hpe_le hpe_gt (Nat.le_max_left 1 _) (by omega) with ⟨c1, c2, c3, c4, c5⟩
        refine ⟨((text.drop off).take (pe - off)).take
            (max 1 (scanFit cw maxW [] ((text.drop off).take (pe - off)) 0 0 none).1),
          off + max 1 (scanFit cw maxW [] ((text.drop off).take (pe - off)) 0 0 none).1,
          ?_, c1, c2, c3, c4, c5⟩
        dsimp only []
        rw [if_neg hfull, hls]
        dsimp only []
        rw [if_neg hpos]
    | none =>
      have hb_lt : (scanFit cw maxW [] ((text.drop off).take (pe - off)) 0 0 none).1 <
          pe - off := by
        rw [hplen] at hfull hs1
        omega
      rcases wto_cut_helper text off pe
          (max 1 (scanFit cw maxW [] ((text.drop off).take (pe - off)) 0 0 none).1)
          hpe_le hpe_gt (Nat.le_max_left 1 _) (by omega) with ⟨c1, c2, c3, c4, c5⟩
      refine ⟨((text.drop off).take (pe - off)).take
          (max 1 (scanFit cw maxW [] ((text.drop off).take (pe - off)) 0 0 none).1),
        off + max 1 (scanFit cw maxW [] ((text.drop off).take (pe - off)) 0 0 none).1,
        ?_, c1, c2, c3, c4, c5⟩
      dsimp only []
      rw [if_neg hfull, hls]

theorem wto_step (cw : Char → Nat) (text : List Char) (maxW off : Nat)
    (h : off < text.length) :
    ∃ l next, wrap_text_with_offsets cw text off maxW = (some (l, off), next) ∧
      off + l.length ≤ next ∧ off < next ∧ next ≤ text.length ∧
      l = (text.drop off).take l.length ∧
      (∀ j, off + l.length ≤ j → j < next →
        text.getD j ' ' = ' ' ∨ text.getD j ' ' = '\n') := by
  simp only [wrap_text_with_offsets]
  rw [if_neg (by omega)]
  by_cases hnl : text.getD off ' ' = '\n'
  · rw [if_pos hnl]
    refine ⟨[], off + 1, rfl, by simp, by omega, by omega, by simp, ?_⟩
    intro j h1 h2
    simp only [List.length_nil, Nat.add_zero] at h1
    have hje : j = off := by omega
    subst hje
    exact Or.inr hnl
  · rw [if_neg hnl]
    cases hfo : findNl text off with
    | some r =>
      rcases findNl_some hfo with ⟨hr1, hr2, hr3⟩
      have hpe_gt : off < r := by
        rcases Nat.lt_or_ge off r with h4 | h4
        · exact h4
        · have : r = off := by omega
          subst this
          exact absurd hr3 hnl
      exact wto_branches cw text maxW off r (r + 1) (by omega) hpe_gt (by omega) (by omega)
        (by
          intro j hj1 hj2
          have hje : j = r := by omega
          subst hje
          exact hr3)
    | none =>
      exact wto_branches cw text maxW off text.length text.length le_rfl h le_rfl le_rfl
        (by
          intro j hj1 hj2
          exact absurd hj2 (by omega))

theorem wrapAllLines_good (cw : Char → Nat) (text : List Char) (maxW : Nat) :
    ∀ (fuel off : Nat), text.length ≤ off + fuel →
      GoodSpans text off (wrapAllLines cw text maxW fuel off) := by
  intro fuel
  induction fuel with
  | zero =>
    intro off h
    simp only [wrapAllLines, GoodSpans]
    omega
  | succ fuel ih =>
    intro off h
    by_cases hoff : off < text.length
    · rcases wto_step cw text maxW off hoff with ⟨l, next, heq, h1, h2, h3, h4, h5⟩
      simp only [wrapAllLines]
      rw [heq]
      show GoodSpans text off ((l, off) :: wrapAllLines cw text maxW fuel next)
      refine ⟨rfl, h4, next, h1, h3, h5, ih next (by omega)⟩
    · have heq : wrap_text_with_offsets cw text off maxW = (none, text.length) := by
        simp only [wrap_text_with_offsets]
        rw [if_pos (by omega)]
      simp only [wrapAllLines]
      rw [heq]
      show GoodSpans text off []
      simp only [GoodSpans]
      omega

theorem GoodSpans_starts (text : List Char) :
    ∀ (L : List (List Char × Nat)) (off : Nat), GoodSpans text off L →
      ∀ p ∈ L, off ≤ p.2 ∧ p.2 + p.1.length ≤ text.length ∧
        p.1 = (text.drop p.2).take p.1.length := by
  intro L
  induction L with
  | nil => intro off _ p hp; simp at hp
  | cons q rest ih =>
    intro off hg p hp
    simp only [GoodSpans] at hg
    rcases hg with ⟨hq1, hq2, next, hn1, hn2, hgap, hrest⟩
    rcases List.mem_cons.mp hp with hp | hp
    · subst hp
      refine ⟨le_of_eq hq1.symm, by omega, ?_⟩
      rw [hq1]
      exact hq2
    · rcases ih next hrest p hp with ⟨m1, m2, m3⟩
      exact ⟨by omega, m2, m3⟩

theorem GoodSpans_pairwise (text : List Char) :
    ∀ (L : List (List Char × Nat)) (off : Nat), GoodSpans text off L →
      List.Pairwise (fun p q => p.2 + p.1.length ≤ q.2) L := by
  intro L
  induction L with
  | nil => intro off _; exact List.Pairwise.nil
  | cons q rest ih =>
    intro off hg
    simp only [GoodSpans] at hg
    rcases hg with ⟨hq1, hq2, next, hn1, hn2, hgap, hrest⟩
    refine List.Pairwise.cons ?_ (ih next hrest)
    intro p hp
    have hnp := (GoodSpans_starts text rest next hrest p hp).1
    omega

theorem GoodSpans_cover (text : List Char) :
    ∀ (L : List (List Char × Nat)) (off : Nat), GoodSpans text off L →
      ∀ j, off ≤ j → j < text.length →
        (∃ p ∈ L, p.2 ≤ j ∧ j < p.2 + p.1.length) ∨
        text.getD j ' ' = ' ' ∨ text.getD j ' ' = '\n' := by
  intro L
  induction L with
  | nil =>
    intro off hg j h1 h2
    simp only [GoodSpans] at hg
    omega
  | cons q rest ih =>
    intro off hg j h1 h2
    simp only [GoodSpans] at hg
    rcases hg with ⟨hq1, hq2, next, hn1, hn2, hgap, hrest⟩
    by_cases hcase1 : j < off + q.1.length
    · exact Or.inl ⟨q, List.mem_cons_self q rest, by omega, by omega⟩
    · by_cases hcase2 : j < next
      · exact Or.inr (hgap j (by omega) hcase2)
      · rcases ih next hrest j (by omega) h2 with hc | hc
        · rcases hc with ⟨p, hp, hp1, hp2⟩
          exact Or.inl ⟨p, List.mem_cons_of_mem q hp, hp1, hp2⟩
        · exact Or.inr hc

/-- C1 counterexample: on text "a b" with unit character widths and
wrap width 2, the offset wrapper breaks at the space and discards it:
the produced source spans are [0,1) and [2,3), so position 1 (the
space) is covered by no span — the spans do not cover the whole of
`[0, length)`. -/
theorem offset_wrapper_spans_cex :
    wrapAllLines (fun _ => 1) ("a b".data) 2 3 0 = [(("a".data), 0), (("b".data), 2)] ∧
    1 < ("a b".data).length ∧
    ∀ p ∈ wrapAllLines (fun _ => 1) ("a b".data) 2 3 0,
      ¬ (p.2 ≤ 1 ∧ 1 < p.2 + p.1.length) := by
  decide

/-- C1 amended: iterating the offset wrapper from offset 0 produces
lines whose source spans are ordered and pairwise non-overlapping, each
span reproduces exactly its slice of the text, and every position of
`[0, length)` is either covered by some span or holds a discarded
break character (a space dropped at a space-break or a paragraph-break
newline) — so the spans cover `[0, length)` except for discarded
space/newline characters, with no overlaps. -/
theorem offset_wrapper_spans_amended (cw : Char → Nat) (text : List Char) (maxW : Nat) :
    List.Pairwise (fun p q => p.2 + p.1.length ≤ q.2)
      (wrapAllLines cw text maxW text.length 0) ∧
    (∀ p ∈ wrapAllLines cw text maxW text.length 0,
      p.2 + p.1.length ≤ text.length ∧ p.1 = (text.drop p.2).take p.1.length) ∧
    (∀ j, j < text.length →
      (∃ p ∈ wrapAllLines cw text maxW text.length 0, p.2 ≤ j ∧ j < p.2 + p.1.length) ∨
      text.getD j ' ' = ' ' ∨ text.getD j ' ' = '\n') := by
  have hg := wrapAllLines_good cw text maxW text.length 0 (by omega)
  refine ⟨GoodSpans_pairwise text _ 0 hg, ?_, ?_⟩
  · intro p hp
    exact ⟨(GoodSpans_starts text _ 0 hg p hp).2.1, (GoodSpans_starts text _ 0 hg p hp).2.2⟩
  · intro j hj
    exact GoodSpans_cover text _ 0 hg j (Nat.zero_le j) hj

theorem offset_wrapper_spans_amended_witness :
    List.Pairwise (fun p q => p.2 + p.1.length ≤ q.2)
      (wrapAllLines (fun _ => 1) ("a b".data) 2 ("a b".data).length 0) ∧
    (∀ p ∈ wrapAllLines (fun _ => 1) ("a b".data) 2 ("a b".data).length 0,
      p.2 + p.1.length ≤ ("a b".data).length ∧
        p.1 = (("a b".data).drop p.2).take p.1.length) ∧
    (∀ j, j < ("a b".data).length →
      (∃ p ∈ wrapAllLines (fun _ => 1) ("a b".data) 2 ("a b".data).length 0,
        p.2 ≤ j ∧ j < p.2 + p.1.length) ∨
      ("a b".data).getD j ' ' = ' ' ∨ ("a b".data).getD j ' ' = '\n') :=
  offset_wrapper_spans_amended (fun _ => 1) ("a b".data) 2

theorem iterOffset_reaches (cw : Char → Nat) (text : List Char) (maxW : Nat) :
    ∀ (fuel off : Nat), off ≤ text.length → text.length ≤ off + fuel →
      iterOffset cw text maxW fuel off = text.length := by
  intro fuel
  induction fuel with
  | zero =>
    intro off h1 h2
    simp only [iterOffset]
    omega
  | succ fuel ih =>
    intro off h1 h2
    simp only [iterOffset]
    split
    · omega
    · rename_i hlt
      have hoff : off < text.length := by omega
      rcases wto_step cw text maxW off hoff with ⟨l, next, heq, _, h2', h3', _, _⟩
      simp only [heq]
      exact ih next (by omega) (by omega)

/-- C3: for every offset strictly below the text length, one call of
the offset wrapper returns a strictly larger next offset (bounded by
the text length), so repeated calls starting from offset 0 reach
exactly the text length within `length text` steps. -/
theorem offset_wrapper_progress (cw : Char → Nat) (text : List Char) (maxW off : Nat)
    (h : off < text.length) :
    off < (wrap_text_with_offsets cw text off maxW).2 ∧
    (wrap_text_with_offsets cw text off maxW).2 ≤ text.length ∧
    iterOffset cw text maxW text.length 0 = text.length := by
  rcases wto_step cw text maxW off h with ⟨l, next, heq, h1, h2, h3, _, _⟩
  refine ⟨?_, ?_, iterOffset_reaches cw text maxW text.length 0 (by omega) (by omega)⟩
  · rw [heq]
    exact h2
  · rw [heq]
    exact h3

theorem offset_wrapper_progress_witness :
    0 < ("ab".data).length ∧
    (0 < (wrap_text_with_offsets (fun _ => 1) ("ab".data) 0 5).2 ∧
      (wrap_text_with_offsets (fun _ => 1) ("ab".data) 0 5).2 ≤ ("ab".data).length ∧
      iterOffset (fun _ => 1) ("ab".data) 5 ("ab".data).length 0 = ("ab".data).length) :=
  ⟨by decide, offset_wrapper_progress (fun _ => 1) ("ab".data) 5 0 (by decide)⟩

end Rodaje
